import Mathlib

/-!
Verification of the event dispatch and one-shot waiter subsystem of the
`hikari` library (`hikari/internal_utilities/aio.py`).

The `EventDelegate` class owns two dictionaries: event name to list of
persistent listener callbacks, and event name to a (weak-key) dictionary
from pending waiter futures to their predicates.  We embed this state as
association lists.  Futures are identified by freshly allocated natural
numbers (`nextFid` is the allocation counter); resolving a future records
its outcome in the `outcomes` association list, mirroring
`Future.set_result` / `Future.set_exception`, which fire at most once per
future.  Predicates are modelled as total functions returning either a
boolean or a raised exception (`PredOutcome`).  Event names are an
arbitrary type `ν` with decidable equality (the source uses strings),
dispatch argument values an arbitrary type `α`, exception values `ε`.
-/

set_option maxHeartbeats 1000000
set_option linter.unusedSectionVars false
set_option linter.unusedVariables false

namespace Hikari

/-- A Python callable object, identified by `cbId`; `isCoroFn` records
whether `asyncio.iscoroutinefunction` is true of it. -/
structure CB where
  cbId : Nat
  isCoroFn : Bool
deriving DecidableEq

/-- Result of invoking a waiter predicate on the dispatch arguments:
either it returns a boolean, or it raises an exception. -/
inductive PredOutcome (ε : Type) where
  | ok (b : Bool)
  | raise (e : ε)
deriving DecidableEq

/-- The canonicalized value delivered to a waiter: `dispatch` with zero
arguments resolves the waiter to `None`, with one argument to that
argument, with two or more to the tuple of arguments
(`aio.py`, lines 157-163). -/
inductive WaiterValue (α : Type) where
  | unit
  | single (a : α)
  | tuple (l : List α)
deriving DecidableEq

/-- The recorded resolution of a waiter future: `set_result` with a
canonicalized value, `set_exception` with a raised predicate exception,
or a timeout of the wrapping `asyncio.wait_for`. -/
inductive FutureOutcome (α ε : Type) where
  | result (v : WaiterValue α)
  | failure (e : ε)
  | timedOut
deriving DecidableEq

/-- A pending waiter entry: the future's identifier, the predicate it was
registered with, and the timeout passed to `wait_for` (carried by the
surrounding `asyncio.wait_for` wrapper in the source). -/
structure Waiter (α ε : Type) where
  fid : Nat
  pred : List α → PredOutcome ε
  timeout : Option ℚ

/-- The state of an `EventDelegate`, together with the allocator for
future identities and the record of resolved futures. -/
structure DelegateState (ν α ε : Type) where
  listeners : List (ν × List CB)
  waiters : List (ν × List (Waiter α ε))
  nextFid : Nat
  outcomes : List (Nat × FutureOutcome α ε)

/-- The state of a freshly constructed `EventDelegate`: both dicts empty. -/
def initState {ν α ε : Type} : DelegateState ν α ε :=
  ⟨[], [], 0, []⟩

section AssocOps

variable {κ β : Type} [DecidableEq κ]

/-- Dictionary lookup on an association list (first matching key). -/
def lookupKey : List (κ × β) → κ → Option β
  | [], _ => none
  | (k, v) :: rest, n => if k = n then some v else lookupKey rest n

/-- Dictionary update `d[n] = v'` on an association list holding key `n`
(replaces the value at the first occurrence of `n`). -/
def setKey : List (κ × β) → κ → β → List (κ × β)
  | [], _, _ => []
  | (k, v) :: rest, n, v' => if k = n then (n, v') :: rest else (k, v) :: setKey rest n v'

/-- Dictionary deletion `del d[n]` on an association list (removes the
first occurrence of key `n`). -/
def eraseKey : List (κ × β) → κ → List (κ × β)
  | [], _ => []
  | (k, v) :: rest, n => if k = n then rest else (k, v) :: eraseKey rest n

end AssocOps

variable {ν α ε : Type} [DecidableEq ν]

/-- Model of `asyncio.iscoroutinefunction` on our callable objects. -/
def iscoroutinefunction (cb : CB) : Bool :=
  cb.isCoroFn

/-- Python exceptions raised by the delegate itself. -/
inductive PyError where
  | typeError (msg : String)
deriving DecidableEq

/-- `EventDelegate.add(name, coroutine_function)` (`aio.py` lines 103-118):
asserts the callback is a coroutine function (raising `TypeError`
otherwise), then appends it to the listener list for `name`, creating the
list when absent. -/
def add (s : DelegateState ν α ε) (name : ν) (cb : CB) :
    Except PyError (DelegateState ν α ε) :=
  if iscoroutinefunction cb then
    match lookupKey s.listeners name with
    | none => .ok { s with listeners := s.listeners ++ [(name, [cb])] }
    | some cbs => .ok { s with listeners := setKey s.listeners name (cbs ++ [cb]) }
  else
    .error (.typeError "You must subscribe a coroutine function only")

/-- `EventDelegate.remove(name, coroutine_function)` (`aio.py` lines
120-135): if the name has listeners and the callback is among them,
delete the whole key when the list has exactly one element, otherwise
remove the first occurrence of the callback; in every other case do
nothing. -/
def remove (s : DelegateState ν α ε) (name : ν) (cb : CB) : DelegateState ν α ε :=
  match lookupKey s.listeners name with
  | none => s
  | some cbs =>
    if cb ∈ cbs then
      if cbs.length - 1 = 0 then
        { s with listeners := eraseKey s.listeners name }
      else
        { s with listeners := setKey s.listeners name (cbs.erase cb) }
    else s

/-- The argument canonicalization performed in `dispatch` (`aio.py` lines
157-163): one argument is unwrapped, zero arguments become `None`, more
become the tuple. -/
def canonicalize : List α → WaiterValue α
  | [] => .unit
  | [a] => .single a
  | args => .tuple args

/-- The waiter loop of `dispatch` (`aio.py` lines 165-172) over the
snapshot of `self._waiters[name].items()`: returns the waiters that stay
pending (predicate returned false) and the resolutions recorded
(`set_result` of the canonicalized arguments on a true predicate,
`set_exception` of the raised exception when the predicate raises; in
both cases the entry is deleted). -/
def processWaiters (args : List α) :
    List (Waiter α ε) → List (Waiter α ε) × List (Nat × FutureOutcome α ε)
  | [] => ([], [])
  | w :: rest =>
    let p := processWaiters args rest
    match w.pred args with
    | .ok true => (p.1, (w.fid, .result (canonicalize args)) :: p.2)
    | .ok false => (w :: p.1, p.2)
    | .raise e => (p.1, (w.fid, .failure e) :: p.2)

/-- An asyncio future that is already resolved, holding its result. -/
structure Future (β : Type) where
  result : β
deriving DecidableEq

/-- `completed_future(result=None)` (`aio.py` lines 234-247): creates a
future and immediately sets the given result on it. -/
def completed_future {β : Type} (result : β) : Future β :=
  ⟨result⟩

/-- The future returned by `dispatch`: either the `asyncio.gather` of the
listener invocations (each callback with the dispatch arguments, in list
order), or `completed_future()` when there are no listeners. -/
inductive DispatchResult (α : Type) where
  | gathered (calls : List (CB × List α))
  | completedFut (fut : Future (Option (WaiterValue α)))
deriving DecidableEq

/-- The waiter phase of `EventDelegate.dispatch` (`aio.py` lines
156-175): when `name` has a waiter dict, resolve every waiter whose
predicate returns true with the canonicalized arguments, resolve every
waiter whose predicate raises with that exception, delete both kinds from
the dict, and delete the name's key when the dict became empty. -/
def dispatchWaiterPhase (s : DelegateState ν α ε) (name : ν) (args : List α) :
    DelegateState ν α ε :=
  match lookupKey s.waiters name with
  | none => s
  | some ws =>
    { s with
      waiters :=
        if (processWaiters args ws).1.isEmpty then eraseKey s.waiters name
        else setKey s.waiters name (processWaiters args ws).1,
      outcomes := (processWaiters args ws).2 ++ s.outcomes }

/-- `EventDelegate.dispatch(name, *args)` (`aio.py` lines 137-180): the
waiter phase above, then the listener phase, which gathers the listener
callbacks applied to the arguments, or returns `completed_future()` when
the name has no listeners. -/
def dispatch (s : DelegateState ν α ε) (name : ν) (args : List α) :
    DelegateState ν α ε × DispatchResult α :=
  match lookupKey (dispatchWaiterPhase s name args).listeners name with
  | some cbs => (dispatchWaiterPhase s name args, .gathered (cbs.map fun cb => (cb, args)))
  | none => (dispatchWaiterPhase s name args, .completedFut (completed_future none))

/-- `EventDelegate.wait_for(name, timeout=..., predicate=...)` (`aio.py`
lines 182-231): creates a fresh future, stores it with the predicate in
the (weak-key) waiter dict for `name` (creating the dict when absent),
and returns the future's identity; the future is wrapped in
`asyncio.wait_for(future, timeout)`. -/
def wait_for (s : DelegateState ν α ε) (name : ν) (timeout : Option ℚ)
    (pred : List α → PredOutcome ε) : DelegateState ν α ε × Nat :=
  ({ s with
      waiters :=
        match lookupKey s.waiters name with
        | none => s.waiters ++ [(name, [⟨s.nextFid, pred, timeout⟩])]
        | some ws => setKey s.waiters name (ws ++ [⟨s.nextFid, pred, timeout⟩]),
      nextFid := s.nextFid + 1 }, s.nextFid)

/-- Environment step modelling the expiry of the `asyncio.wait_for`
wrapper around a pending waiter future (`aio.py` line 231): the awaited
computation fails with `asyncio.TimeoutError`, the inner future is
cancelled, and the weak-key dictionary entry disappears once the dropped
future is collected.  The name's key itself is not deleted here — only
`dispatch` prunes empty waiter dicts. -/
def fireTimeout (s : DelegateState ν α ε) (name : ν) (fid : Nat) : DelegateState ν α ε :=
  match lookupKey s.waiters name with
  | none => s
  | some ws =>
    { s with
      waiters := setKey s.waiters name (ws.filter fun w => w.fid ≠ fid),
      outcomes := (fid, .timedOut) :: s.outcomes }

/-- One public operation on the delegate, for quantifying over call
sequences. -/
inductive Op (ν α ε : Type) where
  | addL (name : ν) (cb : CB)
  | removeL (name : ν) (cb : CB)
  | disp (name : ν) (args : List α)
  | wait (name : ν) (timeout : Option ℚ) (pred : List α → PredOutcome ε)

/-- The event name an operation addresses. -/
def Op.name : Op ν α ε → ν
  | .addL n _ => n
  | .removeL n _ => n
  | .disp n _ => n
  | .wait n _ _ => n

/-- Apply one public operation to the state.  A failing `add` raises
before mutating anything, so it leaves the state unchanged. -/
def applyOp (s : DelegateState ν α ε) : Op ν α ε → DelegateState ν α ε
  | .addL n cb =>
    match add s n cb with
    | .ok s' => s'
    | .error _ => s
  | .removeL n cb => remove s n cb
  | .disp n args => (dispatch s n args).1
  | .wait n t p => (wait_for s n t p).1

/-- Apply a sequence of public operations in order. -/
def applyOps (s : DelegateState ν α ε) : List (Op ν α ε) → DelegateState ν α ε
  | [] => s
  | op :: ops => applyOps (applyOp s op) ops

/-- The states reachable from a fresh delegate by the four public
operations. -/
inductive Reachable : DelegateState ν α ε → Prop where
  | init : Reachable initState
  | step {s : DelegateState ν α ε} (h : Reachable s) (op : Op ν α ε) : Reachable (applyOp s op)

/-- The pending waiters stored under a name (empty when the key is
absent). -/
def waitersOf (s : DelegateState ν α ε) (name : ν) : List (Waiter α ε) :=
  (lookupKey s.waiters name).getD []

/-- The identities of all pending waiter futures of an association list of
waiter dicts. -/
def flatFids : List (ν × List (Waiter α ε)) → List Nat
  | [] => []
  | (_, ws) :: rest => ws.map Waiter.fid ++ flatFids rest

/-- The identities of all pending waiter futures in the state. -/
def allWaiterFids (s : DelegateState ν α ε) : List Nat :=
  flatFids s.waiters

/-- The recorded outcome of a future, if it has been resolved. -/
def lookupOutcome (s : DelegateState ν α ε) (fid : Nat) : Option (FutureOutcome α ε) :=
  lookupKey s.outcomes fid

/-- Well-formedness of a delegate state: dictionary keys are unique, the
pending futures are pairwise distinct and all allocated below `nextFid`,
recorded outcomes concern allocated futures only, and a future still held
in a waiter dict is unresolved. -/
def WF (s : DelegateState ν α ε) : Prop :=
  (s.listeners.map Prod.fst).Nodup ∧
  (s.waiters.map Prod.fst).Nodup ∧
  (allWaiterFids s).Nodup ∧
  (∀ fid ∈ allWaiterFids s, fid < s.nextFid) ∧
  (∀ p ∈ s.outcomes, p.1 < s.nextFid) ∧
  (∀ fid ∈ allWaiterFids s, lookupOutcome s fid = none)

section AssocLemmas

variable {κ β : Type} [DecidableEq κ]

theorem lookupKey_append (l₁ l₂ : List (κ × β)) (n : κ) :
    lookupKey (l₁ ++ l₂) n =
      match lookupKey l₁ n with
      | some v => some v
      | none => lookupKey l₂ n := by
  induction l₁ with
  | nil => simp [lookupKey]
  | cons p rest ih =>
    obtain ⟨k, v⟩ := p
    by_cases h : k = n <;> simp [lookupKey, h, ih]

theorem lookupKey_eq_none {l : List (κ × β)} {n : κ} :
    lookupKey l n = none ↔ n ∉ l.map Prod.fst := by
  induction l with
  | nil => simp [lookupKey]
  | cons p rest ih =>
    obtain ⟨k, v⟩ := p
    by_cases h : k = n
    · subst h
      simp [lookupKey]
    · rw [show lookupKey ((k, v) :: rest) n = lookupKey rest n from by simp [lookupKey, h], ih]
      simp only [List.map_cons, List.mem_cons, not_or]
      constructor
      · intro hn
        exact ⟨fun he => h he.symm, hn⟩
      · intro hn
        exact hn.2

theorem lookupKey_some_mem {l : List (κ × β)} {n : κ} {v : β}
    (h : lookupKey l n = some v) : (n, v) ∈ l := by
  induction l with
  | nil => simp [lookupKey] at h
  | cons p rest ih =>
    obtain ⟨k, v'⟩ := p
    by_cases hk : k = n
    · subst hk
      simp [lookupKey] at h
      simp [h]
    · simp [lookupKey, hk] at h
      exact List.mem_cons_of_mem _ (ih h)

/-- Decomposition of an association list at a present key, together with
the effect of `setKey` and `eraseKey` there. -/
theorem lookupKey_decomp {l : List (κ × β)} {n : κ} {ws : β}
    (h : lookupKey l n = some ws) :
    ∃ l₁ l₂, l = l₁ ++ (n, ws) :: l₂ ∧ lookupKey l₁ n = none ∧
      (∀ v', setKey l n v' = l₁ ++ (n, v') :: l₂) ∧ eraseKey l n = l₁ ++ l₂ := by
  induction l with
  | nil => simp [lookupKey] at h
  | cons p rest ih =>
    obtain ⟨k, v⟩ := p
    by_cases hk : k = n
    · subst hk
      simp [lookupKey] at h
      subst h
      exact ⟨[], rest, rfl, rfl, fun v' => by simp [setKey], by simp [eraseKey]⟩
    · simp only [lookupKey, if_neg hk] at h
      obtain ⟨l₁, l₂, hl, hnone, hset, herase⟩ := ih h
      refine ⟨(k, v) :: l₁, l₂, by simp [hl], ?_, ?_, ?_⟩
      · simp [lookupKey, hk, hnone]
      · intro v'
        simp [setKey, hk, hset v']
      · simp [eraseKey, hk, herase]

theorem lookupKey_cons_ne {l : List (κ × β)} {k n : κ} {v : β} (h : k ≠ n) :
    lookupKey ((k, v) :: l) n = lookupKey l n := by
  simp [lookupKey, h]

theorem lookupKey_cons_self {l : List (κ × β)} {n : κ} {v : β} :
    lookupKey ((n, v) :: l) n = some v := by
  simp [lookupKey]

theorem lookupKey_setKey_ne {l : List (κ × β)} {n m : κ} {v : β} (h : m ≠ n) :
    lookupKey (setKey l n v) m = lookupKey l m := by
  induction l with
  | nil => simp [setKey]
  | cons p rest ih =>
    obtain ⟨k, v'⟩ := p
    by_cases hk : k = n
    · subst hk
      simp [setKey, lookupKey, Ne.symm h, ih]
    · simp [setKey, hk, lookupKey, ih]

theorem lookupKey_eraseKey_ne {l : List (κ × β)} {n m : κ} (h : m ≠ n) :
    lookupKey (eraseKey l n) m = lookupKey l m := by
  induction l with
  | nil => simp [eraseKey]
  | cons p rest ih =>
    obtain ⟨k, v'⟩ := p
    by_cases hk : k = n
    · subst hk
      simp [eraseKey, lookupKey, Ne.symm h]
    · simp [eraseKey, hk, lookupKey, ih]

theorem mem_setKey {l : List (κ × β)} {n : κ} {v : β} {p : κ × β}
    (h : p ∈ setKey l n v) : p = (n, v) ∨ p ∈ l := by
  induction l with
  | nil => simp [setKey] at h
  | cons q rest ih =>
    obtain ⟨k, v'⟩ := q
    by_cases hk : k = n
    · subst hk
      rw [show setKey ((k, v') :: rest) k v = (k, v) :: rest from by simp [setKey]] at h
      rcases List.mem_cons.mp h with h | h
      · exact Or.inl h
      · exact Or.inr (List.mem_cons_of_mem _ h)
    · rw [show setKey ((k, v') :: rest) n v = (k, v') :: setKey rest n v from by
        simp [setKey, hk]] at h
      rcases List.mem_cons.mp h with h | h
      · exact Or.inr (by simp [h])
      · rcases ih h with h' | h'
        · exact Or.inl h'
        · exact Or.inr (List.mem_cons_of_mem _ h')

theorem mem_eraseKey {l : List (κ × β)} {n : κ} {p : κ × β}
    (h : p ∈ eraseKey l n) : p ∈ l := by
  induction l with
  | nil => simp [eraseKey] at h
  | cons q rest ih =>
    obtain ⟨k, v'⟩ := q
    by_cases hk : k = n
    · subst hk
      simp [eraseKey] at h
      exact List.mem_cons_of_mem _ h
    · simp [eraseKey, hk] at h
      rcases h with h | h
      · simp [h]
      · exact List.mem_cons_of_mem _ (ih h)

theorem map_fst_setKey {l : List (κ × β)} {n : κ} {v : β}
    (h : n ∈ l.map Prod.fst) : (setKey l n v).map Prod.fst = l.map Prod.fst := by
  induction l with
  | nil => simp at h
  | cons q rest ih =>
    obtain ⟨k, v'⟩ := q
    by_cases hk : k = n
    · subst hk
      simp [setKey]
    · rw [List.map_cons] at h
      have h' : n ∈ rest.map Prod.fst := by
        rcases List.mem_cons.mp h with h | h
        · exact absurd h.symm hk
        · exact h
      simp [setKey, hk, ih h']

end AssocLemmas

theorem flatFids_append (l₁ l₂ : List (ν × List (Waiter α ε))) :
    flatFids (l₁ ++ l₂) = flatFids l₁ ++ flatFids l₂ := by
  induction l₁ with
  | nil => simp [flatFids]
  | cons p rest ih =>
    obtain ⟨k, ws⟩ := p
    simp [flatFids, ih]

theorem flatFids_cons (k : ν) (ws : List (Waiter α ε)) (l : List (ν × List (Waiter α ε))) :
    flatFids ((k, ws) :: l) = ws.map Waiter.fid ++ flatFids l := rfl

theorem mem_flatFids_of_mem {l : List (ν × List (Waiter α ε))} {p : ν × List (Waiter α ε)}
    (hp : p ∈ l) {w : Waiter α ε} (hw : w ∈ p.2) : w.fid ∈ flatFids l := by
  induction l with
  | nil => simp at hp
  | cons q rest ih =>
    obtain ⟨k, ws⟩ := q
    rw [flatFids_cons]
    rcases List.mem_cons.mp hp with rfl | hp'
    · exact List.mem_append_left _ (List.mem_map_of_mem _ hw)
    · exact List.mem_append_right _ (ih hp')

theorem nodup_fids_of_mem {l : List (ν × List (Waiter α ε))}
    (hn : (flatFids l).Nodup) {p : ν × List (Waiter α ε)} (hp : p ∈ l) :
    (p.2.map Waiter.fid).Nodup := by
  induction l with
  | nil => simp at hp
  | cons q rest ih =>
    obtain ⟨k, ws⟩ := q
    rw [flatFids_cons] at hn
    rcases List.mem_cons.mp hp with rfl | hp'
    · exact (List.nodup_append.mp hn).1
    · exact ih (List.nodup_append.mp hn).2.1 hp'

theorem processWaiters_keep_sublist (args : List α) (ws : List (Waiter α ε)) :
    (processWaiters args ws).1.Sublist ws := by
  induction ws with
  | nil => exact List.Sublist.refl _
  | cons w rest ih =>
    cases hp : w.pred args with
    | ok b =>
      cases b
      · simpa [processWaiters, hp] using ih.cons₂ w
      · simpa [processWaiters, hp] using ih.cons w
    | raise e => simpa [processWaiters, hp] using ih.cons w

/-- A waiter stays in the pending dict after the dispatch loop exactly
when it was there before and its predicate returned false. -/
theorem mem_processWaiters_keep {args : List α} {ws : List (Waiter α ε)} {w : Waiter α ε} :
    w ∈ (processWaiters args ws).1 ↔ w ∈ ws ∧ w.pred args = .ok false := by
  induction ws with
  | nil => simp [processWaiters]
  | cons w' rest ih =>
    cases hp : w'.pred args with
    | ok b =>
      cases b
      · simp only [processWaiters, hp, List.mem_cons, ih]
        constructor
        · rintro (rfl | ⟨h1, h2⟩)
          · exact ⟨Or.inl rfl, hp⟩
          · exact ⟨Or.inr h1, h2⟩
        · rintro ⟨rfl | h1, h2⟩
          · exact Or.inl rfl
          · exact Or.inr ⟨h1, h2⟩
      · simp only [processWaiters, hp, List.mem_cons, ih]
        constructor
        · rintro ⟨h1, h2⟩
          exact ⟨Or.inr h1, h2⟩
        · rintro ⟨rfl | h1, h2⟩
          · rw [hp] at h2
            exact Bool.noConfusion (PredOutcome.ok.inj h2)
          · exact ⟨h1, h2⟩
    | raise e =>
      simp only [processWaiters, hp, List.mem_cons, ih]
      constructor
      · rintro ⟨h1, h2⟩
        exact ⟨Or.inr h1, h2⟩
      · rintro ⟨rfl | h1, h2⟩
        · rw [hp] at h2
          exact PredOutcome.noConfusion h2
        · exact ⟨h1, h2⟩

/-- Every resolution recorded by the dispatch loop belongs to a waiter
that was pending and whose predicate did not return false. -/
theorem res_fids_subset {args : List α} {ws : List (Waiter α ε)} {fid : Nat}
    (h : fid ∈ (processWaiters args ws).2.map Prod.fst) :
    ∃ w ∈ ws, w.fid = fid ∧ w.pred args ≠ .ok false := by
  induction ws with
  | nil => simp [processWaiters] at h
  | cons w' rest ih =>
    cases hp : w'.pred args with
    | ok b =>
      cases b
      · simp only [processWaiters, hp] at h
        obtain ⟨w, h1, h2, h3⟩ := ih h
        exact ⟨w, List.mem_cons_of_mem _ h1, h2, h3⟩
      · simp only [processWaiters, hp, List.map_cons, List.mem_cons] at h
        rcases h with h | h
        · exact ⟨w', List.mem_cons_self _ _, h.symm, by simp [hp]⟩
        · obtain ⟨w, h1, h2, h3⟩ := ih h
          exact ⟨w, List.mem_cons_of_mem _ h1, h2, h3⟩
    | raise e =>
      simp only [processWaiters, hp, List.map_cons, List.mem_cons] at h
      rcases h with h | h
      · exact ⟨w', List.mem_cons_self _ _, h.symm, by simp [hp]⟩
      · obtain ⟨w, h1, h2, h3⟩ := ih h
        exact ⟨w, List.mem_cons_of_mem _ h1, h2, h3⟩

/-- Resolution lookup for a waiter whose predicate returned true: its
future is set to the canonicalized arguments. -/
theorem lookup_res_true {args : List α} {ws : List (Waiter α ε)} {w : Waiter α ε}
    (hnd : (ws.map Waiter.fid).Nodup) (hw : w ∈ ws) (hp : w.pred args = .ok true) :
    lookupKey (processWaiters args ws).2 w.fid = some (.result (canonicalize args)) := by
  induction ws with
  | nil => simp at hw
  | cons w' rest ih =>
    rw [List.map_cons, List.nodup_cons] at hnd
    rcases List.mem_cons.mp hw with rfl | hw'
    · simp [processWaiters, hp, lookupKey]
    · have hne : w'.fid ≠ w.fid := fun he =>
        hnd.1 (he ▸ List.mem_map_of_mem Waiter.fid hw')
      have ih' := ih hnd.2 hw'
      cases hp' : w'.pred args with
      | ok b =>
        cases b
        · simp only [processWaiters, hp']
          exact ih'
        · simp only [processWaiters, hp']
          rw [lookupKey_cons_ne hne]
          exact ih'
      | raise e =>
        simp only [processWaiters, hp']
        rw [lookupKey_cons_ne hne]
        exact ih'

/-- Resolution lookup for a waiter whose predicate raised: its future is
set to the raised exception. -/
theorem lookup_res_raise {args : List α} {ws : List (Waiter α ε)} {w : Waiter α ε} {e : ε}
    (hnd : (ws.map Waiter.fid).Nodup) (hw : w ∈ ws) (hp : w.pred args = .raise e) :
    lookupKey (processWaiters args ws).2 w.fid = some (.failure e) := by
  induction ws with
  | nil => simp at hw
  | cons w' rest ih =>
    rw [List.map_cons, List.nodup_cons] at hnd
    rcases List.mem_cons.mp hw with rfl | hw'
    · simp [processWaiters, hp, lookupKey]
    · have hne : w'.fid ≠ w.fid := fun he =>
        hnd.1 (he ▸ List.mem_map_of_mem Waiter.fid hw')
      have ih' := ih hnd.2 hw'
      cases hp' : w'.pred args with
      | ok b =>
        cases b
        · simp only [processWaiters, hp']
          exact ih'
        · simp only [processWaiters, hp']
          rw [lookupKey_cons_ne hne]
          exact ih'
      | raise e' =>
        simp only [processWaiters, hp']
        rw [lookupKey_cons_ne hne]
        exact ih'

/-- A future that was not pending under the dispatched name gets no new
resolution from the dispatch loop. -/
theorem lookup_res_not_mem {args : List α} {ws : List (Waiter α ε)} {fid : Nat}
    (h : fid ∉ ws.map Waiter.fid) :
    lookupKey (processWaiters args ws).2 fid = none := by
  cases hres : lookupKey (processWaiters args ws).2 fid with
  | none => rfl
  | some o =>
    have hmem := lookupKey_some_mem hres
    have : fid ∈ (processWaiters args ws).2.map Prod.fst := by
      exact List.mem_map_of_mem Prod.fst hmem
    obtain ⟨w, hw, hfid, _⟩ := res_fids_subset this
    exact absurd (hfid ▸ List.mem_map_of_mem Waiter.fid hw) h

theorem dispatch_fst (s : DelegateState ν α ε) (name : ν) (args : List α) :
    (dispatch s name args).1 = dispatchWaiterPhase s name args := by
  unfold dispatch
  cases lookupKey (dispatchWaiterPhase s name args).listeners name <;> rfl

theorem dispatchWaiterPhase_none {s : DelegateState ν α ε} {name : ν}
    (h : lookupKey s.waiters name = none) (args : List α) :
    dispatchWaiterPhase s name args = s := by
  simp [dispatchWaiterPhase, h]

theorem dispatchWaiterPhase_some {s : DelegateState ν α ε} {name : ν}
    {ws : List (Waiter α ε)} (h : lookupKey s.waiters name = some ws) (args : List α) :
    dispatchWaiterPhase s name args =
      { s with
        waiters :=
          if (processWaiters args ws).1.isEmpty then eraseKey s.waiters name
          else setKey s.waiters name (processWaiters args ws).1,
        outcomes := (processWaiters args ws).2 ++ s.outcomes } := by
  simp [dispatchWaiterPhase, h]

theorem dispatchWaiterPhase_listeners (s : DelegateState ν α ε) (name : ν) (args : List α) :
    (dispatchWaiterPhase s name args).listeners = s.listeners := by
  cases h : lookupKey s.waiters name with
  | none => rw [dispatchWaiterPhase_none h]
  | some ws => rw [dispatchWaiterPhase_some h]

theorem dispatchWaiterPhase_nextFid (s : DelegateState ν α ε) (name : ν) (args : List α) :
    (dispatchWaiterPhase s name args).nextFid = s.nextFid := by
  cases h : lookupKey s.waiters name with
  | none => rw [dispatchWaiterPhase_none h]
  | some ws => rw [dispatchWaiterPhase_some h]

/-- The dispatch loop only shrinks the global set of pending futures. -/
theorem dispatchWaiterPhase_flat_sublist (s : DelegateState ν α ε) (name : ν) (args : List α) :
    (allWaiterFids (dispatchWaiterPhase s name args)).Sublist (allWaiterFids s) := by
  cases h : lookupKey s.waiters name with
  | none => rw [dispatchWaiterPhase_none h]
  | some ws =>
    rw [dispatchWaiterPhase_some h]
    obtain ⟨l₁, l₂, hdec, hnone, hset, herase⟩ := lookupKey_decomp h
    unfold allWaiterFids
    by_cases hk : (processWaiters args ws).1.isEmpty
    · simp only [hk, if_pos]
      rw [herase, flatFids_append]
      conv_rhs => rw [hdec, flatFids_append, flatFids_cons]
      exact (List.Sublist.refl _).append (List.sublist_append_right _ _)
    · simp only [hk, if_neg, Bool.false_eq_true, not_false_eq_true]
      rw [hset, flatFids_append, flatFids_cons]
      conv_rhs => rw [hdec, flatFids_append, flatFids_cons]
      exact (List.Sublist.refl _).append
        (((processWaiters_keep_sublist args ws).map Waiter.fid).append (List.Sublist.refl _))

/-- A resolution recorded by the dispatch loop never concerns a future
absent from the pending collections. -/
theorem lookupOutcome_dispatchWaiterPhase_of_not_pending {s : DelegateState ν α ε} {fid : Nat}
    (hnp : fid ∉ allWaiterFids s) (name : ν) (args : List α) :
    lookupOutcome (dispatchWaiterPhase s name args) fid = lookupOutcome s fid := by
  cases h : lookupKey s.waiters name with
  | none => rw [dispatchWaiterPhase_none h]
  | some ws =>
    rw [dispatchWaiterPhase_some h]
    unfold lookupOutcome
    show lookupKey ((processWaiters args ws).2 ++ s.outcomes) fid = _
    rw [lookupKey_append]
    have hfid : fid ∉ ws.map Waiter.fid := fun hin => by
      obtain ⟨w, hw, he⟩ := List.mem_map.mp hin
      exact hnp (he ▸ mem_flatFids_of_mem (lookupKey_some_mem h) hw)
    rw [lookup_res_not_mem hfid]

/-- A future identity that is no longer pending and was already
allocated.  Such a future can never again be touched by any public
operation. -/
def Retired (s : DelegateState ν α ε) (fid : Nat) : Prop :=
  fid ∉ allWaiterFids s ∧ fid < s.nextFid

theorem add_state (s : DelegateState ν α ε) (name : ν) (cb : CB) :
    (applyOp s (.addL name cb)).waiters = s.waiters ∧
    (applyOp s (.addL name cb)).outcomes = s.outcomes ∧
    (applyOp s (.addL name cb)).nextFid = s.nextFid := by
  unfold applyOp add
  by_cases hc : iscoroutinefunction cb = true
  · cases hl : lookupKey s.listeners name <;> simp [hc, hl]
  · simp [hc]

theorem remove_state (s : DelegateState ν α ε) (name : ν) (cb : CB) :
    (remove s name cb).waiters = s.waiters ∧
    (remove s name cb).outcomes = s.outcomes ∧
    (remove s name cb).nextFid = s.nextFid := by
  unfold remove
  split
  · exact ⟨rfl, rfl, rfl⟩
  · split
    · split
      · exact ⟨rfl, rfl, rfl⟩
      · exact ⟨rfl, rfl, rfl⟩
    · exact ⟨rfl, rfl, rfl⟩

theorem wait_for_state (s : DelegateState ν α ε) (name : ν) (t : Option ℚ)
    (p : List α → PredOutcome ε) :
    (wait_for s name t p).1.listeners = s.listeners ∧
    (wait_for s name t p).1.outcomes = s.outcomes ∧
    (wait_for s name t p).1.nextFid = s.nextFid + 1 :=
  ⟨rfl, rfl, rfl⟩

theorem wait_for_waiters_none {s : DelegateState ν α ε} {name : ν} {t : Option ℚ}
    {p : List α → PredOutcome ε} (h : lookupKey s.waiters name = none) :
    (wait_for s name t p).1.waiters = s.waiters ++ [(name, [⟨s.nextFid, p, t⟩])] := by
  unfold wait_for
  rw [h]

theorem wait_for_waiters_some {s : DelegateState ν α ε} {name : ν} {t : Option ℚ}
    {p : List α → PredOutcome ε} {ws : List (Waiter α ε)}
    (h : lookupKey s.waiters name = some ws) :
    (wait_for s name t p).1.waiters = setKey s.waiters name (ws ++ [⟨s.nextFid, p, t⟩]) := by
  unfold wait_for
  rw [h]

/-- `wait_for` adds exactly the fresh future to the pending collection. -/
theorem wait_for_flat_perm (s : DelegateState ν α ε) (name : ν) (t : Option ℚ)
    (p : List α → PredOutcome ε) :
    (allWaiterFids (wait_for s name t p).1).Perm (s.nextFid :: allWaiterFids s) := by
  cases h : lookupKey s.waiters name with
  | none =>
    rw [allWaiterFids, allWaiterFids, wait_for_waiters_none h, flatFids_append]
    exact List.perm_append_singleton _ _
  | some ws =>
    obtain ⟨l₁, l₂, hdec, hnone, hset, herase⟩ := lookupKey_decomp h
    rw [allWaiterFids, allWaiterFids, wait_for_waiters_some h, hset, flatFids_append,
      flatFids_cons, List.map_append]
    conv_rhs => rw [hdec, flatFids_append, flatFids_cons]
    have e1 : flatFids l₁ ++ ((ws.map Waiter.fid ++ [s.nextFid]) ++ flatFids l₂)
        = (flatFids l₁ ++ ws.map Waiter.fid) ++ s.nextFid :: flatFids l₂ := by
      simp [List.append_assoc]
    rw [show (([(⟨s.nextFid, p, t⟩ : Waiter α ε)]).map Waiter.fid) = [s.nextFid] from rfl, e1]
    refine List.Perm.trans List.perm_middle ?_
    rw [List.append_assoc]

/-- Once a future is retired, every public operation leaves it retired. -/
theorem Retired_applyOp {s : DelegateState ν α ε} {fid : Nat} (h : Retired s fid)
    (op : Op ν α ε) : Retired (applyOp s op) fid := by
  obtain ⟨hnp, hlt⟩ := h
  cases op with
  | addL n cb =>
    obtain ⟨hw, _, hn⟩ := add_state s n cb
    exact ⟨by rw [allWaiterFids, hw]; exact hnp, by rw [hn]; exact hlt⟩
  | removeL n cb =>
    obtain ⟨hw, _, hn⟩ := remove_state s n cb
    refine ⟨?_, ?_⟩
    · show fid ∉ allWaiterFids (remove s n cb)
      rw [allWaiterFids, hw]
      exact hnp
    · show fid < (remove s n cb).nextFid
      rw [hn]
      exact hlt
  | disp n args =>
    refine ⟨fun hin => hnp ?_, ?_⟩
    · rw [applyOp, dispatch_fst] at hin
      exact (dispatchWaiterPhase_flat_sublist s n args).subset hin
    · rw [applyOp, dispatch_fst, dispatchWaiterPhase_nextFid]
      exact hlt
  | wait n t p =>
    refine ⟨fun hin => ?_, ?_⟩
    · have hperm := wait_for_flat_perm s n t p
      have hmem0 := hperm.subset hin
      rcases List.mem_cons.mp hmem0 with he | hmem
      · exact absurd he (Nat.ne_of_lt hlt)
      · exact hnp hmem
    · show fid < (wait_for s n t p).1.nextFid
      rw [(wait_for_state s n t p).2.2]
      exact Nat.lt_succ_of_lt hlt

/-- Once a future is retired, its recorded outcome can never change. -/
theorem lookupOutcome_applyOp {s : DelegateState ν α ε} {fid : Nat} (h : Retired s fid)
    (op : Op ν α ε) : lookupOutcome (applyOp s op) fid = lookupOutcome s fid := by
  cases op with
  | addL n cb =>
    obtain ⟨_, ho, _⟩ := add_state s n cb
    rw [lookupOutcome, ho]
    rfl
  | removeL n cb =>
    obtain ⟨_, ho, _⟩ := remove_state s n cb
    show lookupOutcome (remove s n cb) fid = _
    rw [lookupOutcome, ho]
    rfl
  | disp n args =>
    rw [applyOp, dispatch_fst]
    exact lookupOutcome_dispatchWaiterPhase_of_not_pending h.1 n args
  | wait n t p =>
    obtain ⟨_, ho, _⟩ := wait_for_state s n t p
    show lookupOutcome (wait_for s n t p).1 fid = _
    rw [lookupOutcome, ho]
    rfl

/-- Once a future is retired, its recorded outcome is stable under every
further sequence of public operations. -/
theorem lookupOutcome_applyOps {s : DelegateState ν α ε} {fid : Nat} (h : Retired s fid)
    (ops : List (Op ν α ε)) : lookupOutcome (applyOps s ops) fid = lookupOutcome s fid := by
  induction ops generalizing s with
  | nil => rfl
  | cons op rest ih =>
    rw [applyOps, ih (Retired_applyOp h op), lookupOutcome_applyOp h op]

/-- If a waiter's predicate returned false, the dispatch loop records no
resolution for its future. -/
theorem false_pred_fid_not_res {args : List α} {ws : List (Waiter α ε)} {w : Waiter α ε}
    (hnd : (ws.map Waiter.fid).Nodup) (hw : w ∈ ws) (hf : w.pred args = .ok false) :
    lookupKey (processWaiters args ws).2 w.fid = none := by
  cases hres : lookupKey (processWaiters args ws).2 w.fid with
  | none => rfl
  | some o =>
    have hmem : w.fid ∈ (processWaiters args ws).2.map Prod.fst :=
      List.mem_map_of_mem Prod.fst (lookupKey_some_mem hres)
    obtain ⟨w2, hw2, hfid, hnf⟩ := res_fids_subset hmem
    have he : w2 = w := List.inj_on_of_nodup_map hnd hw2 hw hfid
    rw [he] at hnf
    exact absurd hf hnf

/-- A waiter whose predicate did not return false is removed by the
dispatch loop over its name: its future is pending nowhere afterwards. -/
theorem matched_fid_not_pending {s : DelegateState ν α ε} (hWF : WF s) {name : ν}
    {ws : List (Waiter α ε)} {args : List α} {w : Waiter α ε}
    (h : lookupKey s.waiters name = some ws) (hw : w ∈ ws)
    (hnf : w.pred args ≠ .ok false) :
    w.fid ∉ allWaiterFids (dispatchWaiterPhase s name args) := by
  have hFN : (allWaiterFids s).Nodup := hWF.2.2.1
  obtain ⟨l₁, l₂, hdec, hnone, hset, herase⟩ := lookupKey_decomp h
  have hflat : flatFids s.waiters
      = flatFids l₁ ++ (ws.map Waiter.fid ++ flatFids l₂) := by
    rw [hdec, flatFids_append, flatFids_cons]
  rw [allWaiterFids, hflat] at hFN
  obtain ⟨h1, h23, hd1⟩ := List.nodup_append.mp hFN
  obtain ⟨h2, h3, hd23⟩ := List.nodup_append.mp h23
  have hfw : w.fid ∈ ws.map Waiter.fid := List.mem_map_of_mem Waiter.fid hw
  have hnF1 : w.fid ∉ flatFids l₁ := fun hin => hd1 hin (List.mem_append_left _ hfw)
  have hnF2 : w.fid ∉ flatFids l₂ := hd23 hfw
  have hnKeep : w.fid ∉ (processWaiters args ws).1.map Waiter.fid := by
    intro hin
    obtain ⟨w2, hw2, hfe⟩ := List.mem_map.mp hin
    obtain ⟨hw2mem, hw2f⟩ := mem_processWaiters_keep.mp hw2
    have he : w2 = w := List.inj_on_of_nodup_map h2 hw2mem hw hfe
    rw [he] at hw2f
    exact hnf hw2f
  rw [dispatchWaiterPhase_some h]
  show w.fid ∉ flatFids (if (processWaiters args ws).1.isEmpty then eraseKey s.waiters name
    else setKey s.waiters name (processWaiters args ws).1)
  by_cases hk : (processWaiters args ws).1.isEmpty
  · rw [if_pos hk, herase, flatFids_append]
    intro hin
    rcases List.mem_append.mp hin with hin | hin
    · exact hnF1 hin
    · exact hnF2 hin
  · rw [if_neg hk, hset, flatFids_append, flatFids_cons]
    intro hin
    rcases List.mem_append.mp hin with hin | hin
    · exact hnF1 hin
    · rcases List.mem_append.mp hin with hin | hin
      · exact hnKeep hin
      · exact hnF2 hin

/-- Outcome recorded by `dispatch` for a pending waiter whose predicate
returned true: its future is set to the canonicalized arguments. -/
theorem dispatch_outcome_true {s : DelegateState ν α ε} (hWF : WF s) {name : ν}
    {ws : List (Waiter α ε)} {args : List α} {w : Waiter α ε}
    (h : lookupKey s.waiters name = some ws) (hw : w ∈ ws)
    (hp : w.pred args = .ok true) :
    lookupOutcome (dispatch s name args).1 w.fid = some (.result (canonicalize args)) := by
  rw [dispatch_fst, dispatchWaiterPhase_some h, lookupOutcome]
  show lookupKey ((processWaiters args ws).2 ++ s.outcomes) w.fid = _
  rw [lookupKey_append]
  have hnd : (ws.map Waiter.fid).Nodup :=
    nodup_fids_of_mem hWF.2.2.1 (lookupKey_some_mem h)
  rw [lookup_res_true hnd hw hp]

/-- Outcome recorded by `dispatch` for a pending waiter whose predicate
raised: its future is set to the raised exception. -/
theorem dispatch_outcome_raise {s : DelegateState ν α ε} (hWF : WF s) {name : ν}
    {ws : List (Waiter α ε)} {args : List α} {w : Waiter α ε} {e : ε}
    (h : lookupKey s.waiters name = some ws) (hw : w ∈ ws)
    (hp : w.pred args = .raise e) :
    lookupOutcome (dispatch s name args).1 w.fid = some (.failure e) := by
  rw [dispatch_fst, dispatchWaiterPhase_some h, lookupOutcome]
  show lookupKey ((processWaiters args ws).2 ++ s.outcomes) w.fid = _
  rw [lookupKey_append]
  have hnd : (ws.map Waiter.fid).Nodup :=
    nodup_fids_of_mem hWF.2.2.1 (lookupKey_some_mem h)
  rw [lookup_res_raise hnd hw hp]

/-- A pending waiter whose predicate returned false stays pending under
its name and its future remains unresolved. -/
theorem dispatch_keep_waiter {s : DelegateState ν α ε} (hWF : WF s) {name : ν}
    {ws : List (Waiter α ε)} {args : List α} {w : Waiter α ε}
    (h : lookupKey s.waiters name = some ws) (hw : w ∈ ws)
    (hf : w.pred args = .ok false) :
    w ∈ waitersOf (dispatch s name args).1 name ∧
    lookupOutcome (dispatch s name args).1 w.fid = none := by
  have hnd : (ws.map Waiter.fid).Nodup :=
    nodup_fids_of_mem hWF.2.2.1 (lookupKey_some_mem h)
  have hkeep : w ∈ (processWaiters args ws).1 := mem_processWaiters_keep.mpr ⟨hw, hf⟩
  have hke : ¬(processWaiters args ws).1.isEmpty := by
    intro hk
    rw [List.isEmpty_iff] at hk
    rw [hk] at hkeep
    exact absurd hkeep (List.not_mem_nil w)
  obtain ⟨l₁, l₂, hdec, hnone, hset, herase⟩ := lookupKey_decomp h
  constructor
  · rw [dispatch_fst, dispatchWaiterPhase_some h, waitersOf]
    show w ∈ (lookupKey (if (processWaiters args ws).1.isEmpty then eraseKey s.waiters name
      else setKey s.waiters name (processWaiters args ws).1) name).getD []
    rw [if_neg hke, hset, lookupKey_append, hnone]
    show w ∈ (lookupKey ((name, (processWaiters args ws).1) :: l₂) name).getD []
    rw [lookupKey_cons_self]
    exact hkeep
  · rw [dispatch_fst, dispatchWaiterPhase_some h, lookupOutcome]
    show lookupKey ((processWaiters args ws).2 ++ s.outcomes) w.fid = none
    rw [lookupKey_append, false_pred_fid_not_res hnd hw hf]
    show lookupKey s.outcomes w.fid = none
    exact hWF.2.2.2.2.2 w.fid (mem_flatFids_of_mem (lookupKey_some_mem h) hw)

theorem fireTimeout_some {s : DelegateState ν α ε} {name : ν} {ws : List (Waiter α ε)}
    (h : lookupKey s.waiters name = some ws) (fid : Nat) :
    fireTimeout s name fid =
      { s with
        waiters := setKey s.waiters name (ws.filter fun w => w.fid ≠ fid),
        outcomes := (fid, .timedOut) :: s.outcomes } := by
  simp [fireTimeout, h]

/-- Firing the timeout of a pending waiter records the timeout outcome
for its future. -/
theorem fireTimeout_outcome {s : DelegateState ν α ε} {name : ν} {ws : List (Waiter α ε)}
    (h : lookupKey s.waiters name = some ws) (fid : Nat) :
    lookupOutcome (fireTimeout s name fid) fid = some .timedOut := by
  rw [fireTimeout_some h, lookupOutcome]
  show lookupKey ((fid, FutureOutcome.timedOut) :: s.outcomes) fid = _
  rw [lookupKey_cons_self]

/-- Firing the timeout of a pending waiter removes its future from every
pending collection. -/
theorem fireTimeout_not_pending {s : DelegateState ν α ε} (hWF : WF s) {name : ν}
    {ws : List (Waiter α ε)} {w : Waiter α ε}
    (h : lookupKey s.waiters name = some ws) (hw : w ∈ ws) :
    w.fid ∉ allWaiterFids (fireTimeout s name w.fid) := by
  have hFN : (allWaiterFids s).Nodup := hWF.2.2.1
  obtain ⟨l₁, l₂, hdec, hnone, hset, herase⟩ := lookupKey_decomp h
  have hflat : flatFids s.waiters
      = flatFids l₁ ++ (ws.map Waiter.fid ++ flatFids l₂) := by
    rw [hdec, flatFids_append, flatFids_cons]
  rw [allWaiterFids, hflat] at hFN
  obtain ⟨h1, h23, hd1⟩ := List.nodup_append.mp hFN
  obtain ⟨h2, h3, hd23⟩ := List.nodup_append.mp h23
  have hfw : w.fid ∈ ws.map Waiter.fid := List.mem_map_of_mem Waiter.fid hw
  have hnF1 : w.fid ∉ flatFids l₁ := fun hin => hd1 hin (List.mem_append_left _ hfw)
  have hnF2 : w.fid ∉ flatFids l₂ := hd23 hfw
  rw [fireTimeout_some h]
  show w.fid ∉ flatFids (setKey s.waiters name (ws.filter fun w2 => w2.fid ≠ w.fid))
  rw [hset, flatFids_append, flatFids_cons]
  intro hin
  rcases List.mem_append.mp hin with hin | hin
  · exact hnF1 hin
  · rcases List.mem_append.mp hin with hin | hin
    · obtain ⟨w2, hw2, hfe⟩ := List.mem_map.mp hin
      have := List.of_mem_filter hw2
      rw [decide_eq_true_eq] at this
      exact this hfe
    · exact hnF2 hin

section AssocMore

variable {κ β : Type} [DecidableEq κ]

theorem map_fst_eraseKey_sublist (l : List (κ × β)) (n : κ) :
    ((eraseKey l n).map Prod.fst).Sublist (l.map Prod.fst) := by
  induction l with
  | nil => simp [eraseKey]
  | cons p rest ih =>
    obtain ⟨k, v⟩ := p
    by_cases hk : k = n
    · subst hk
      rw [show eraseKey ((k, v) :: rest) k = rest from by simp [eraseKey]]
      exact (List.Sublist.refl _).cons _
    · rw [show eraseKey ((k, v) :: rest) n = (k, v) :: eraseKey rest n from by
        simp [eraseKey, hk]]
      exact ih.cons₂ _

theorem lookupKey_eraseKey_self {l : List (κ × β)} {n : κ}
    (hnd : (l.map Prod.fst).Nodup) {v : β} (h : lookupKey l n = some v) :
    lookupKey (eraseKey l n) n = none := by
  obtain ⟨l₁, l₂, hdec, hnone, hset, herase⟩ := lookupKey_decomp h
  rw [herase, lookupKey_append, hnone]
  show lookupKey l₂ n = none
  rw [lookupKey_eq_none]
  subst hdec
  rw [List.map_append, List.map_cons] at hnd
  exact (List.nodup_cons.mp (List.nodup_append.mp hnd).2.1).1

theorem lookupKey_append_singleton_ne {l : List (κ × β)} {n m : κ} {v : β} (h : m ≠ n) :
    lookupKey (l ++ [(n, v)]) m = lookupKey l m := by
  rw [lookupKey_append]
  cases hl : lookupKey l m with
  | none =>
    show lookupKey [(n, v)] m = none
    simp [lookupKey, Ne.symm h]
  | some v2 => rfl

theorem lookupKey_append_singleton_self {l : List (κ × β)} {n : κ} {v : β}
    (h : lookupKey l n = none) :
    lookupKey (l ++ [(n, v)]) n = some v := by
  rw [lookupKey_append, h]
  show lookupKey [(n, v)] n = some v
  simp [lookupKey]

theorem lookupKey_setKey_self {l : List (κ × β)} {n : κ} {ws : β}
    (h : lookupKey l n = some ws) (v : β) :
    lookupKey (setKey l n v) n = some v := by
  obtain ⟨l₁, l₂, hdec, hnone, hset, herase⟩ := lookupKey_decomp h
  rw [hset, lookupKey_append, hnone]
  show lookupKey ((n, v) :: l₂) n = some v
  rw [lookupKey_cons_self]

end AssocMore

/-- Uniqueness of the dictionary keys of both mappings (a Python `dict`
cannot hold a key twice). -/
def KeysNodup (s : DelegateState ν α ε) : Prop :=
  (s.listeners.map Prod.fst).Nodup ∧ (s.waiters.map Prod.fst).Nodup

theorem KeysNodup_applyOp {s : DelegateState ν α ε} (h : KeysNodup s) (op : Op ν α ε) :
    KeysNodup (applyOp s op) := by
  obtain ⟨hL, hW⟩ := h
  cases op with
  | addL n cb =>
    by_cases hc : iscoroutinefunction cb = true
    · cases hl : lookupKey s.listeners n with
      | none =>
        have hred : applyOp s (.addL n cb)
            = { s with listeners := s.listeners ++ [(n, [cb])] } := by
          simp [applyOp, add, hc, hl]
        rw [hred]
        refine ⟨?_, hW⟩
        show ((s.listeners ++ [(n, [cb])]).map Prod.fst).Nodup
        rw [List.map_append]
        rw [List.nodup_append]
        refine ⟨hL, List.nodup_singleton n, ?_⟩
        intro a ha hna
        rw [List.map_singleton, List.mem_singleton] at hna
        subst hna
        exact (lookupKey_eq_none.mp hl) ha
      | some cbs =>
        have hred : applyOp s (.addL n cb)
            = { s with listeners := setKey s.listeners n (cbs ++ [cb]) } := by
          simp [applyOp, add, hc, hl]
        rw [hred]
        refine ⟨?_, hW⟩
        show ((setKey s.listeners n (cbs ++ [cb])).map Prod.fst).Nodup
        rw [map_fst_setKey (List.mem_map_of_mem Prod.fst (lookupKey_some_mem hl))]
        exact hL
    · have hred : applyOp s (.addL n cb) = s := by
        simp [applyOp, add, hc]
      rw [hred]
      exact ⟨hL, hW⟩
  | removeL n cb =>
    show KeysNodup (remove s n cb)
    unfold remove
    cases hl : lookupKey s.listeners n with
    | none => exact ⟨hL, hW⟩
    | some cbs =>
      by_cases hm : cb ∈ cbs
      · by_cases hlen : cbs.length - 1 = 0
        · simp only [hm, if_pos, hlen]
          refine ⟨(map_fst_eraseKey_sublist s.listeners n).nodup hL, hW⟩
        · simp only [hm, if_pos, hlen, if_neg]
          refine ⟨?_, hW⟩
          show ((setKey s.listeners n (cbs.erase cb)).map Prod.fst).Nodup
          rw [map_fst_setKey (List.mem_map_of_mem Prod.fst (lookupKey_some_mem hl))]
          exact hL
      · simp only [hm, if_neg]
        exact ⟨hL, hW⟩
  | disp n args =>
    rw [applyOp, dispatch_fst]
    cases hl : lookupKey s.waiters n with
    | none =>
      rw [dispatchWaiterPhase_none hl]
      exact ⟨hL, hW⟩
    | some ws =>
      rw [dispatchWaiterPhase_some hl]
      refine ⟨hL, ?_⟩
      show ((if (processWaiters args ws).1.isEmpty then eraseKey s.waiters n
        else setKey s.waiters n (processWaiters args ws).1).map Prod.fst).Nodup
      by_cases hk : (processWaiters args ws).1.isEmpty
      · rw [if_pos hk]
        exact (map_fst_eraseKey_sublist s.waiters n).nodup hW
      · rw [if_neg hk]
        rw [map_fst_setKey (List.mem_map_of_mem Prod.fst (lookupKey_some_mem hl))]
        exact hW
  | wait n t p =>
    refine ⟨?_, ?_⟩
    · show ((wait_for s n t p).1.listeners.map Prod.fst).Nodup
      rw [(wait_for_state s n t p).1]
      exact hL
    · show ((wait_for s n t p).1.waiters.map Prod.fst).Nodup
      cases hl : lookupKey s.waiters n with
      | none =>
        rw [wait_for_waiters_none hl, List.map_append, List.nodup_append]
        refine ⟨hW, List.nodup_singleton n, ?_⟩
        intro a ha hna
        rw [List.map_singleton, List.mem_singleton] at hna
        subst hna
        exact (lookupKey_eq_none.mp hl) ha
      | some ws =>
        rw [wait_for_waiters_some hl,
          map_fst_setKey (List.mem_map_of_mem Prod.fst (lookupKey_some_mem hl))]
        exact hW

theorem reachable_KeysNodup {s : DelegateState ν α ε} (h : Reachable s) : KeysNodup s := by
  induction h with
  | init => exact ⟨List.nodup_nil, List.nodup_nil⟩
  | step h op ih => exact KeysNodup_applyOp ih op

/-- Both mappings hold only non-empty value collections. -/
def NonEmptyVals (s : DelegateState ν α ε) : Prop :=
  (∀ p ∈ s.listeners, p.2 ≠ []) ∧ (∀ p ∈ s.waiters, p.2 ≠ [])

theorem NonEmptyVals_applyOp {s : DelegateState ν α ε} (h : NonEmptyVals s) (op : Op ν α ε) :
    NonEmptyVals (applyOp s op) := by
  obtain ⟨hL, hW⟩ := h
  cases op with
  | addL n cb =>
    by_cases hc : iscoroutinefunction cb = true
    · cases hl : lookupKey s.listeners n with
      | none =>
        have hred : applyOp s (.addL n cb)
            = { s with listeners := s.listeners ++ [(n, [cb])] } := by
          simp [applyOp, add, hc, hl]
        rw [hred]
        refine ⟨?_, hW⟩
        intro p hp
        rcases List.mem_append.mp hp with hp | hp
        · exact hL p hp
        · rw [List.mem_singleton] at hp
          subst hp
          simp
      | some cbs =>
        have hred : applyOp s (.addL n cb)
            = { s with listeners := setKey s.listeners n (cbs ++ [cb]) } := by
          simp [applyOp, add, hc, hl]
        rw [hred]
        refine ⟨?_, hW⟩
        intro p hp
        rcases mem_setKey hp with hp | hp
        · subst hp
          simp
        · exact hL p hp
    · have hred : applyOp s (.addL n cb) = s := by
        simp [applyOp, add, hc]
      rw [hred]
      exact ⟨hL, hW⟩
  | removeL n cb =>
    show NonEmptyVals (remove s n cb)
    unfold remove
    cases hl : lookupKey s.listeners n with
    | none => exact ⟨hL, hW⟩
    | some cbs =>
      by_cases hm : cb ∈ cbs
      · by_cases hlen : cbs.length - 1 = 0
        · simp only [hm, if_pos, hlen]
          exact ⟨fun p hp => hL p (mem_eraseKey hp), hW⟩
        · simp only [hm, if_pos, hlen, if_neg]
          refine ⟨?_, hW⟩
          intro p hp
          rcases mem_setKey hp with hp | hp
          · subst hp
            show cbs.erase cb ≠ []
            have hlen2 : 2 ≤ cbs.length := by omega
            have : (cbs.erase cb).length = cbs.length - 1 := List.length_erase_of_mem hm
            intro hnil
            rw [hnil] at this
            simp at this
            omega
          · exact hL p hp
      · simp only [hm, if_neg]
        exact ⟨hL, hW⟩
  | disp n args =>
    rw [applyOp, dispatch_fst]
    cases hl : lookupKey s.waiters n with
    | none =>
      rw [dispatchWaiterPhase_none hl]
      exact ⟨hL, hW⟩
    | some ws =>
      rw [dispatchWaiterPhase_some hl]
      refine ⟨hL, ?_⟩
      intro p hp
      rw [show ({ s with
          waiters := if (processWaiters args ws).1.isEmpty then eraseKey s.waiters n
            else setKey s.waiters n (processWaiters args ws).1,
          outcomes := (processWaiters args ws).2 ++ s.outcomes } :
            DelegateState ν α ε).waiters
        = if (processWaiters args ws).1.isEmpty then eraseKey s.waiters n
            else setKey s.waiters n (processWaiters args ws).1 from rfl] at hp
      by_cases hk : (processWaiters args ws).1.isEmpty
      · rw [if_pos hk] at hp
        exact hW p (mem_eraseKey hp)
      · rw [if_neg hk] at hp
        rcases mem_setKey hp with hp | hp
        · subst hp
          show (processWaiters args ws).1 ≠ []
          intro hnil
          rw [← List.isEmpty_iff] at hnil
          exact hk hnil
        · exact hW p hp
  | wait n t p =>
    refine ⟨?_, ?_⟩
    · intro q hq
      replace hq : q ∈ (wait_for s n t p).1.listeners := hq
      rw [(wait_for_state s n t p).1] at hq
      exact hL q hq
    · intro q hq
      replace hq : q ∈ (wait_for s n t p).1.waiters := hq
      cases hl : lookupKey s.waiters n with
      | none =>
        rw [wait_for_waiters_none hl] at hq
        rcases List.mem_append.mp hq with hq | hq
        · exact hW q hq
        · rw [List.mem_singleton] at hq
          subst hq
          simp
      | some ws =>
        rw [wait_for_waiters_some hl] at hq
        rcases mem_setKey hq with hq | hq
        · subst hq
          simp
        · exact hW q hq

theorem reachable_NonEmptyVals {s : DelegateState ν α ε} (h : Reachable s) :
    NonEmptyVals s := by
  induction h with
  | init => exact ⟨fun p hp => absurd hp (List.not_mem_nil p),
      fun p hp => absurd hp (List.not_mem_nil p)⟩
  | step h op ih => exact NonEmptyVals_applyOp ih op

/-- A successful `add` appends the callback to the listener list of its
name (creating the list when absent). -/
theorem add_listeners_lookup (s : DelegateState ν α ε) (name : ν) {cb : CB}
    (hc : cb.isCoroFn = true) :
    lookupKey (applyOp s (.addL name cb)).listeners name
      = some ((lookupKey s.listeners name).getD [] ++ [cb]) := by
  cases hl : lookupKey s.listeners name with
  | none =>
    have hred : applyOp s (.addL name cb)
        = { s with listeners := s.listeners ++ [(name, [cb])] } := by
      simp [applyOp, add, iscoroutinefunction, hc, hl]
    rw [hred]
    show lookupKey (s.listeners ++ [(name, [cb])]) name = some ([] ++ [cb])
    rw [lookupKey_append_singleton_self hl]
    rfl
  | some cbs =>
    have hred : applyOp s (.addL name cb)
        = { s with listeners := setKey s.listeners name (cbs ++ [cb]) } := by
      simp [applyOp, add, iscoroutinefunction, hc, hl]
    rw [hred]
    show lookupKey (setKey s.listeners name (cbs ++ [cb])) name = some (cbs ++ [cb])
    exact lookupKey_setKey_self hl (cbs ++ [cb])

/-- Registering a list of coroutine callbacks under a name appends them,
in order, to the listener list of that name. -/
theorem registerAll_lookup (s : DelegateState ν α ε) (name : ν) {fs : List CB}
    (hcoro : ∀ f ∈ fs, f.isCoroFn = true) (hne : fs ≠ []) :
    lookupKey (applyOps s (fs.map (Op.addL name))).listeners name
      = some ((lookupKey s.listeners name).getD [] ++ fs) := by
  induction fs generalizing s with
  | nil => exact absurd rfl hne
  | cons f rest ih =>
    rw [List.map_cons]
    show lookupKey (applyOps (applyOp s (.addL name f)) (rest.map (Op.addL name))).listeners
      name = _
    by_cases hr : rest = []
    · subst hr
      show lookupKey (applyOp s (.addL name f)).listeners name = _
      rw [add_listeners_lookup s name (hcoro f (List.mem_cons_self f []))]
    · rw [ih (applyOp s (.addL name f)) (fun g hg => hcoro g (List.mem_cons_of_mem f hg)) hr,
        add_listeners_lookup s name (hcoro f (List.mem_cons_self f rest))]
      simp

/-- The behaviour of an awaited operation in the timeout model: how long
it runs and how it finishes (a value or a raised exception). -/
structure AsyncOp (β η : Type) where
  duration : ℚ
  outcome : Except η β

/-- Failure of an operation run under `maybe_timeout`: either the
deadline's `asyncio.TimeoutError` or the operation's own exception. -/
inductive ScopedError (η : Type) where
  | timeoutError
  | opError (e : η)
deriving DecidableEq

/-- Modelled from the semantics of the external `async_timeout` library:
`async_timeout.timeout(t)` raises `asyncio.TimeoutError` when the
enclosed operation runs longer than `t`; otherwise the scope exits with
the operation's own outcome (success or its own exception) and the
deadline is disarmed. -/
def runWithDeadline {β η : Type} (t : ℚ) (op : AsyncOp β η) : Except (ScopedError η) β :=
  if t < op.duration then .error .timeoutError
  else op.outcome.mapError .opError

/-- `maybe_timeout(timeout)` (`aio.py` lines 250-269): wraps the enclosed
operation in `async_timeout.timeout(timeout)` when
`timeout is not None and timeout > 0`, and otherwise runs it bare. -/
def maybe_timeout {β η : Type} (timeout : Option ℚ) (op : AsyncOp β η) :
    Except (ScopedError η) β :=
  match timeout with
  | some t => if 0 < t then runWithDeadline t op else op.outcome.mapError .opError
  | none => op.outcome.mapError .opError

/-- C1: For every `dispatch(name, *args)` call and every pending waiter
under `name` whose predicate returns true on `args`, the waiter's
completion handle is resolved with the canonicalized result: `None` when
`args` is empty, the single argument unwrapped when `args` has exactly
one element, and the full argument tuple when `args` has two or more
elements. -/
theorem dispatch_resolves_matching_waiter {s : DelegateState ν α ε} (hWF : WF s)
    (name : ν) (args : List α) (w : Waiter α ε)
    (hw : w ∈ waitersOf s name) (hp : w.pred args = .ok true) :
    (args = [] →
      lookupOutcome (dispatch s name args).1 w.fid = some (.result .unit)) ∧
    (∀ a, args = [a] →
      lookupOutcome (dispatch s name args).1 w.fid = some (.result (.single a))) ∧
    (2 ≤ args.length →
      lookupOutcome (dispatch s name args).1 w.fid = some (.result (.tuple args))) := by
  cases hl : lookupKey s.waiters name with
  | none =>
    rw [waitersOf, hl] at hw
    exact absurd hw (List.not_mem_nil w)
  | some ws =>
    rw [waitersOf, hl] at hw
    replace hw : w ∈ ws := hw
    have hout := dispatch_outcome_true hWF hl hw hp
    refine ⟨?_, ?_, ?_⟩
    · intro he
      subst he
      exact hout
    · intro a he
      subst he
      exact hout
    · intro hlen
      have hc : canonicalize args = .tuple args := by
        cases args with
        | nil => simp at hlen
        | cons a t =>
          cases t with
          | nil => simp at hlen
          | cons b t2 => rfl
      rw [hc] at hout
      exact hout

/-- C2: Each waiter created by `wait_for` is resolved at most once: a
waiter matched (predicate true or raising) by one dispatch call is
removed from every pending collection and its recorded outcome never
changes again under any later sequence of public operations, even if its
predicate would still return true; a waiter whose predicate returns false
is not resolved and remains pending for future dispatches. -/
theorem waiter_exactly_once {s : DelegateState ν α ε} (hWF : WF s)
    (name : ν) (args : List α) (w : Waiter α ε) (hw : w ∈ waitersOf s name) :
    (w.pred args ≠ .ok false →
      w.fid ∉ allWaiterFids (dispatch s name args).1 ∧
      ∀ ops : List (Op ν α ε),
        lookupOutcome (applyOps (dispatch s name args).1 ops) w.fid
          = lookupOutcome (dispatch s name args).1 w.fid) ∧
    (w.pred args = .ok false →
      w ∈ waitersOf (dispatch s name args).1 name ∧
      lookupOutcome (dispatch s name args).1 w.fid = none) := by
  cases hl : lookupKey s.waiters name with
  | none =>
    rw [waitersOf, hl] at hw
    exact absurd hw (List.not_mem_nil w)
  | some ws =>
    rw [waitersOf, hl] at hw
    replace hw : w ∈ ws := hw
    constructor
    · intro hnf
      have hnp : w.fid ∉ allWaiterFids (dispatch s name args).1 := by
        rw [dispatch_fst]
        exact matched_fid_not_pending hWF hl hw hnf
      refine ⟨hnp, fun ops => ?_⟩
      have hret : Retired (dispatch s name args).1 w.fid := by
        refine ⟨hnp, ?_⟩
        rw [dispatch_fst, dispatchWaiterPhase_nextFid]
        exact hWF.2.2.2.1 w.fid (mem_flatFids_of_mem (lookupKey_some_mem hl) hw)
      exact lookupOutcome_applyOps hret ops
    · intro hf
      exact dispatch_keep_waiter hWF hl hw hf

/-- C3: If a pending waiter's predicate raises during
`dispatch(name, *args)`, the exception is delivered as that waiter's
failure outcome and the waiter is removed; `dispatch` is a total function
of the model (the exception does not propagate), and every other pending
waiter under the same name is still evaluated in the same call, resolving
normally when its predicate matches. -/
theorem predicate_exception_isolated {s : DelegateState ν α ε} (hWF : WF s)
    (name : ν) (args : List α) (w : Waiter α ε) (e : ε)
    (hw : w ∈ waitersOf s name) (hp : w.pred args = .raise e) :
    lookupOutcome (dispatch s name args).1 w.fid = some (.failure e) ∧
    w.fid ∉ allWaiterFids (dispatch s name args).1 ∧
    (∀ w2 ∈ waitersOf s name, w2.pred args = .ok true →
      lookupOutcome (dispatch s name args).1 w2.fid
        = some (.result (canonicalize args))) := by
  cases hl : lookupKey s.waiters name with
  | none =>
    rw [waitersOf, hl] at hw
    exact absurd hw (List.not_mem_nil w)
  | some ws =>
    rw [waitersOf, hl] at hw
    replace hw : w ∈ ws := hw
    refine ⟨dispatch_outcome_raise hWF hl hw hp, ?_, ?_⟩
    · rw [dispatch_fst]
      refine matched_fid_not_pending hWF hl hw ?_
      rw [hp]
      intro hcontra
      exact PredOutcome.noConfusion hcontra
    · intro w2 hw2 hp2
      rw [waitersOf, hl] at hw2
      exact dispatch_outcome_true hWF hl hw2 hp2

/-- C4: When the positive timeout of a `wait_for` waiter elapses with no
matching dispatch, the returned computation fails with the timeout error
and the waiter entry is removed from the delegate's waiter state, so a
later matching dispatch has no effect on it.  (The expiry of the
`asyncio.wait_for` wrapper and the weak-reference cleanup of the dropped
future are modelled by the `fireTimeout` environment step.) -/
theorem wait_for_timeout_removes_waiter {s : DelegateState ν α ε} (hWF : WF s)
    (name : ν) (w : Waiter α ε) (t : ℚ)
    (hw : w ∈ waitersOf s name) (ht : w.timeout = some t) (hpos : 0 < t) :
    lookupOutcome (fireTimeout s name w.fid) w.fid = some .timedOut ∧
    w.fid ∉ allWaiterFids (fireTimeout s name w.fid) ∧
    (∀ n2 args,
      lookupOutcome (dispatch (fireTimeout s name w.fid) n2 args).1 w.fid
        = some .timedOut) := by
  cases hl : lookupKey s.waiters name with
  | none =>
    rw [waitersOf, hl] at hw
    exact absurd hw (List.not_mem_nil w)
  | some ws =>
    rw [waitersOf, hl] at hw
    replace hw : w ∈ ws := hw
    have h1 := fireTimeout_outcome hl w.fid
    have h2 := fireTimeout_not_pending hWF hl hw
    refine ⟨h1, h2, fun n2 args => ?_⟩
    rw [dispatch_fst, lookupOutcome_dispatchWaiterPhase_of_not_pending h2 n2 args]
    exact h1

/-- C5: In every state reachable by register, unregister, dispatch and
wait_for, every key of the listener mapping maps to a non-empty callback
list and every key of the waiter mapping maps to a non-empty waiter
collection; removing the last callback of a name, or a dispatch resolving
a name's last pending waiters, removes that name's key. -/
theorem mapping_keys_nonempty {s : DelegateState ν α ε} (hr : Reachable s) :
    ((∀ p ∈ s.listeners, p.2 ≠ []) ∧ (∀ p ∈ s.waiters, p.2 ≠ [])) ∧
    (∀ name cb, lookupKey s.listeners name = some [cb] →
      lookupKey (remove s name cb).listeners name = none) ∧
    (∀ name ws args, lookupKey s.waiters name = some ws →
      (processWaiters args ws).1 = [] →
      lookupKey (dispatch s name args).1.waiters name = none) := by
  obtain ⟨hKL, hKW⟩ := reachable_KeysNodup hr
  refine ⟨reachable_NonEmptyVals hr, ?_, ?_⟩
  · intro name cb hl
    have hred : remove s name cb = { s with listeners := eraseKey s.listeners name } := by
      unfold remove
      rw [hl]
      simp
    rw [hred]
    exact lookupKey_eraseKey_self hKL hl
  · intro name ws args hl hempty
    rw [dispatch_fst, dispatchWaiterPhase_some hl]
    show lookupKey (if (processWaiters args ws).1.isEmpty then eraseKey s.waiters name
      else setKey s.waiters name (processWaiters args ws).1) name = none
    rw [hempty]
    show lookupKey (eraseKey s.waiters name) name = none
    exact lookupKey_eraseKey_self hKW hl

/-- C6: `register(name, callback)` with a non-coroutine-function callback
fails with a `TypeError` identifying the misuse and does not modify the
listener mapping; with a coroutine function it succeeds and appends the
callback to the name's list. -/
theorem register_rejects_non_coroutine (s : DelegateState ν α ε) (name : ν) (cb : CB) :
    (cb.isCoroFn = false →
      add s name cb
        = .error (.typeError "You must subscribe a coroutine function only")) ∧
    (cb.isCoroFn = true →
      ∃ s2, add s name cb = .ok s2 ∧
        lookupKey s2.listeners name
          = some ((lookupKey s.listeners name).getD [] ++ [cb]) ∧
        s2.waiters = s.waiters ∧ s2.outcomes = s.outcomes) := by
  constructor
  · intro hc
    unfold add
    rw [show iscoroutinefunction cb = false from hc]
    rfl
  · intro hc
    have hok : add s name cb = .ok (applyOp s (.addL name cb)) := by
      cases hl : lookupKey s.listeners name with
      | none => simp [applyOp, add, iscoroutinefunction, hc, hl]
      | some cbs => simp [applyOp, add, iscoroutinefunction, hc, hl]
    exact ⟨applyOp s (.addL name cb), hok, add_listeners_lookup s name hc,
      (add_state s name cb).1, (add_state s name cb).2.1⟩

/-- C7: Registering the callbacks `f1..fn` (all coroutine functions)
under a fresh name and then dispatching that name invokes exactly those
listeners, in registration order, each receiving the dispatch call's
positional arguments. -/
theorem listeners_invoked_in_order (s : DelegateState ν α ε) (name : ν) (fs : List CB)
    (args : List α) (hcoro : ∀ f ∈ fs, f.isCoroFn = true) (hne : fs ≠ [])
    (hfresh : lookupKey s.listeners name = none) :
    (dispatch (applyOps s (fs.map (Op.addL name))) name args).2
      = .gathered (fs.map fun f => (f, args)) := by
  have hl : lookupKey (applyOps s (fs.map (Op.addL name))).listeners name = some fs := by
    rw [registerAll_lookup s name hcoro hne, hfresh]
    rfl
  have hl2 : lookupKey (dispatchWaiterPhase (applyOps s (fs.map (Op.addL name))) name
      args).listeners name = some fs := by
    rw [dispatchWaiterPhase_listeners]
    exact hl
  unfold dispatch
  rw [hl2]

/-- C8: `dispatch(name, ...)` with zero registered listeners for `name`
returns an already-resolved future carrying `None`, produced by the
`completed_future` helper whose default result value is `None`. -/
theorem dispatch_no_listeners (s : DelegateState ν α ε) (name : ν) (args : List α)
    (h : lookupKey s.listeners name = none) :
    (dispatch s name args).2 = .completedFut (completed_future none) ∧
    (completed_future (none : Option (WaiterValue α))).result = none := by
  refine ⟨?_, rfl⟩
  have hll : lookupKey (dispatchWaiterPhase s name args).listeners name = none := by
    rw [dispatchWaiterPhase_listeners]
    exact h
  unfold dispatch
  rw [hll]

/-- C9: `maybe_timeout` with a `None` or non-positive duration runs the
enclosed operation with no deadline and never raises a timeout error
regardless of the operation's duration; with a positive duration it
raises the timeout error exactly when the operation runs longer than that
duration, and otherwise the scope exits with the operation's own outcome
on every exit path (success or the operation's own exception), the
deadline being disarmed. -/
theorem maybe_timeout_spec {β η : Type} (timeout : Option ℚ) (op : AsyncOp β η) :
    ((timeout = none ∨ ∃ t, timeout = some t ∧ t ≤ 0) →
      maybe_timeout timeout op = op.outcome.mapError ScopedError.opError ∧
      maybe_timeout timeout op ≠ .error .timeoutError) ∧
    (∀ t, timeout = some t → 0 < t →
      (t < op.duration ↔ maybe_timeout timeout op = .error .timeoutError) ∧
      (¬t < op.duration →
        maybe_timeout timeout op = op.outcome.mapError ScopedError.opError)) := by
  constructor
  · intro hcase
    have hred : maybe_timeout timeout op = op.outcome.mapError ScopedError.opError := by
      rcases hcase with rfl | ⟨t, rfl, hle⟩
      · rfl
      · show (if 0 < t then runWithDeadline t op else op.outcome.mapError .opError) = _
        rw [if_neg (not_lt.mpr hle)]
    refine ⟨hred, ?_⟩
    rw [hred]
    cases ho : op.outcome with
    | ok b => simp [Except.mapError]
    | error e2 => simp [Except.mapError]
  · intro t he hpos
    subst he
    have hred : maybe_timeout (some t) op = runWithDeadline t op := by
      show (if 0 < t then runWithDeadline t op else op.outcome.mapError .opError) = _
      rw [if_pos hpos]
    constructor
    · constructor
      · intro hlt
        rw [hred, runWithDeadline, if_pos hlt]
      · intro heq
        by_contra hnlt
        rw [hred, runWithDeadline, if_neg hnlt] at heq
        cases ho : op.outcome with
        | ok b =>
          rw [ho] at heq
          simp [Except.mapError] at heq
        | error e2 =>
          rw [ho] at heq
          simp [Except.mapError] at heq
    · intro hnlt
      rw [hred, runWithDeadline, if_neg hnlt]

/-- C10: Each of `add(n, f)`, `remove(n, f)`, `dispatch(n, *args)` and
`wait_for(n, timeout, predicate)` leaves the listener sequence and the
waiter collection of every name `m` distinct from `n` unchanged. -/
theorem operations_do_not_touch_other_names (s : DelegateState ν α ε) (op : Op ν α ε)
    (m : ν) (hne : m ≠ op.name) :
    lookupKey (applyOp s op).listeners m = lookupKey s.listeners m ∧
    lookupKey (applyOp s op).waiters m = lookupKey s.waiters m := by
  cases op with
  | addL n cb =>
    replace hne : m ≠ n := hne
    constructor
    · by_cases hc : iscoroutinefunction cb = true
      · cases hl : lookupKey s.listeners n with
        | none =>
          have hred : applyOp s (.addL n cb)
              = { s with listeners := s.listeners ++ [(n, [cb])] } := by
            simp [applyOp, add, hc, hl]
          rw [hred]
          exact lookupKey_append_singleton_ne hne
        | some cbs =>
          have hred : applyOp s (.addL n cb)
              = { s with listeners := setKey s.listeners n (cbs ++ [cb]) } := by
            simp [applyOp, add, hc, hl]
          rw [hred]
          exact lookupKey_setKey_ne hne
      · have hred : applyOp s (.addL n cb) = s := by
          simp [applyOp, add, hc]
        rw [hred]
    · rw [(add_state s n cb).1]
  | removeL n cb =>
    replace hne : m ≠ n := hne
    constructor
    · show lookupKey (remove s n cb).listeners m = _
      unfold remove
      cases hl : lookupKey s.listeners n with
      | none => rfl
      | some cbs =>
        by_cases hm : cb ∈ cbs
        · by_cases hlen : cbs.length - 1 = 0
          · simp only [hm, if_pos, hlen]
            exact lookupKey_eraseKey_ne hne
          · simp only [hm, if_pos, hlen, if_neg]
            exact lookupKey_setKey_ne hne
        · simp [hm]
    · show lookupKey (remove s n cb).waiters m = _
      rw [(remove_state s n cb).1]
  | disp n args =>
    replace hne : m ≠ n := hne
    rw [applyOp, dispatch_fst]
    cases hl : lookupKey s.waiters n with
    | none =>
      rw [dispatchWaiterPhase_none hl]
      exact ⟨rfl, rfl⟩
    | some ws =>
      rw [dispatchWaiterPhase_some hl]
      refine ⟨rfl, ?_⟩
      show lookupKey (if (processWaiters args ws).1.isEmpty then eraseKey s.waiters n
        else setKey s.waiters n (processWaiters args ws).1) m = _
      by_cases hk : (processWaiters args ws).1.isEmpty
      · rw [if_pos hk]
        exact lookupKey_eraseKey_ne hne
      · rw [if_neg hk]
        exact lookupKey_setKey_ne hne
  | wait n t p =>
    replace hne : m ≠ n := hne
    constructor
    · show lookupKey (wait_for s n t p).1.listeners m = _
      rw [(wait_for_state s n t p).1]
    · show lookupKey (wait_for s n t p).1.waiters m = _
      cases hl : lookupKey s.waiters n with
      | none =>
        rw [wait_for_waiters_none hl]
        exact lookupKey_append_singleton_ne hne
      | some ws =>
        rw [wait_for_waiters_some hl]
        exact lookupKey_setKey_ne hne

/-- A predicate returning true on every argument list. -/
def predAlwaysTrue : List Nat → PredOutcome Nat := fun _ => .ok true

/-- A predicate returning false on every argument list. -/
def predAlwaysFalse : List Nat → PredOutcome Nat := fun _ => .ok false

/-- A predicate raising exception `7` on every argument list. -/
def predRaises7 : List Nat → PredOutcome Nat := fun _ => .raise 7

/-- One always-true waiter with a one-second timeout pending under
name `0`. -/
def wit1State : DelegateState Nat Nat Nat :=
  (wait_for initState 0 (some 1) predAlwaysTrue).1

/-- Witness for C1 at a concrete two-argument dispatch. -/
theorem dispatch_resolves_matching_waiter_witness :
    lookupOutcome (dispatch wit1State 0 [5, 7]).1 0
      = some (.result (.tuple [5, 7])) := by
  have hWF : WF wit1State :=
    ⟨by decide, by decide, by decide, by decide, by decide, by decide⟩
  have hw : (⟨0, predAlwaysTrue, some 1⟩ : Waiter Nat Nat) ∈ waitersOf wit1State 0 :=
    List.mem_cons_self _ _
  exact (dispatch_resolves_matching_waiter hWF 0 [5, 7] _ hw rfl).2.2 (by decide)

/-- One always-true waiter with no timeout pending under name `0`. -/
def wit2State : DelegateState Nat Nat Nat :=
  (wait_for initState 0 none predAlwaysTrue).1

/-- Witness for C2: the matched waiter is removed and its outcome is
unchanged by a later dispatch for the same name with a matching
predicate. -/
theorem waiter_exactly_once_witness :
    0 ∉ allWaiterFids (dispatch wit2State 0 [3]).1 ∧
    lookupOutcome (applyOps (dispatch wit2State 0 [3]).1 [Op.disp 0 [3]]) 0
      = lookupOutcome (dispatch wit2State 0 [3]).1 0 := by
  have hWF : WF wit2State :=
    ⟨by decide, by decide, by decide, by decide, by decide, by decide⟩
  have hw : (⟨0, predAlwaysTrue, none⟩ : Waiter Nat Nat) ∈ waitersOf wit2State 0 :=
    List.mem_cons_self _ _
  have h := (waiter_exactly_once hWF 0 [3] _ hw).1 (by decide)
  exact ⟨h.1, h.2 [Op.disp 0 [3]]⟩

/-- A raising waiter and an always-true waiter pending under name `0`. -/
def wit3State : DelegateState Nat Nat Nat :=
  (wait_for (wait_for initState 0 none predRaises7).1 0 none predAlwaysTrue).1

/-- Witness for C3: the raising waiter fails with its exception while the
sibling waiter of the same dispatch call resolves normally. -/
theorem predicate_exception_isolated_witness :
    lookupOutcome (dispatch wit3State 0 [9]).1 0 = some (.failure 7) ∧
    lookupOutcome (dispatch wit3State 0 [9]).1 1 = some (.result (.single 9)) := by
  have hWF : WF wit3State :=
    ⟨by decide, by decide, by decide, by decide, by decide, by decide⟩
  have hw : (⟨0, predRaises7, none⟩ : Waiter Nat Nat) ∈ waitersOf wit3State 0 :=
    List.mem_cons_self _ _
  have hw2 : (⟨1, predAlwaysTrue, none⟩ : Waiter Nat Nat) ∈ waitersOf wit3State 0 :=
    List.mem_cons_of_mem _ (List.mem_cons_self _ _)
  have h := predicate_exception_isolated hWF 0 [9] _ 7 hw rfl
  exact ⟨h.1, h.2.2 _ hw2 rfl⟩

/-- One always-false waiter with a one-second timeout pending under
name `0`. -/
def wit4State : DelegateState Nat Nat Nat :=
  (wait_for initState 0 (some 1) predAlwaysFalse).1

/-- Witness for C4: after the timeout fires the future is timed out,
gone from the waiter state, and untouched by a later matching dispatch. -/
theorem wait_for_timeout_removes_waiter_witness :
    lookupOutcome (fireTimeout wit4State 0 0) 0 = some .timedOut ∧
    0 ∉ allWaiterFids (fireTimeout wit4State 0 0) ∧
    lookupOutcome (dispatch (fireTimeout wit4State 0 0) 0 [4]).1 0
      = some .timedOut := by
  have hWF : WF wit4State :=
    ⟨by decide, by decide, by decide, by decide, by decide, by decide⟩
  have hw : (⟨0, predAlwaysFalse, some 1⟩ : Waiter Nat Nat) ∈ waitersOf wit4State 0 :=
    List.mem_cons_self _ _
  have h := wait_for_timeout_removes_waiter hWF 0 _ 1 hw rfl (by norm_num)
  exact ⟨h.1, h.2.1, h.2.2 0 [4]⟩

/-- A reachable state: one listener registered under name `0` and one
waiter pending under name `0`. -/
def wit5State : DelegateState Nat Nat Nat :=
  applyOp (applyOp initState (.addL 0 ⟨5, true⟩)) (.wait 0 none predAlwaysTrue)

/-- Witness for C5 at a concrete reachable state. -/
theorem mapping_keys_nonempty_witness :
    ((∀ p ∈ wit5State.listeners, p.2 ≠ []) ∧ (∀ p ∈ wit5State.waiters, p.2 ≠ [])) ∧
    (∀ name cb, lookupKey wit5State.listeners name = some [cb] →
      lookupKey (remove wit5State name cb).listeners name = none) ∧
    (∀ name ws args, lookupKey wit5State.waiters name = some ws →
      (processWaiters args ws).1 = [] →
      lookupKey (dispatch wit5State name args).1.waiters name = none) :=
  mapping_keys_nonempty
    (Reachable.step (Reachable.step Reachable.init (.addL 0 ⟨5, true⟩))
      (.wait 0 none predAlwaysTrue))

/-- Witness for C6: a non-coroutine callback is rejected with the
`TypeError`, a coroutine callback is appended. -/
theorem register_rejects_non_coroutine_witness :
    (add (initState : DelegateState Nat Nat Nat) 0 ⟨1, false⟩
      = .error (.typeError "You must subscribe a coroutine function only")) ∧
    (∃ s2, add (initState : DelegateState Nat Nat Nat) 0 ⟨2, true⟩ = .ok s2 ∧
      lookupKey s2.listeners 0
        = some ((lookupKey (initState : DelegateState Nat Nat Nat).listeners 0).getD []
          ++ [⟨2, true⟩]) ∧
      s2.waiters = (initState : DelegateState Nat Nat Nat).waiters ∧
      s2.outcomes = (initState : DelegateState Nat Nat Nat).outcomes) :=
  ⟨(register_rejects_non_coroutine initState 0 ⟨1, false⟩).1 rfl,
   (register_rejects_non_coroutine initState 0 ⟨2, true⟩).2 rfl⟩

/-- Witness for C7: two listeners registered under name `0` are gathered
in registration order with the dispatch arguments. -/
theorem listeners_invoked_in_order_witness :
    (dispatch (applyOps (initState : DelegateState Nat Nat Nat)
        ([⟨1, true⟩, ⟨2, true⟩].map (Op.addL 0))) 0 [8]).2
      = .gathered [(⟨1, true⟩, [8]), (⟨2, true⟩, [8])] := by
  exact listeners_invoked_in_order (initState : DelegateState Nat Nat Nat) 0
    [⟨1, true⟩, ⟨2, true⟩] [8] (by decide) (by decide) rfl

/-- Witness for C8: dispatching a name with no listeners returns the
completed future carrying `None`. -/
theorem dispatch_no_listeners_witness :
    (dispatch (initState : DelegateState Nat Nat Nat) 3 [1, 2]).2
      = .completedFut (completed_future none) ∧
    (completed_future (none : Option (WaiterValue Nat))).result = none :=
  dispatch_no_listeners initState 3 [1, 2] rfl

/-- Witness for C9 at concrete durations: a positive timeout shorter than
the operation fires, a longer one is disarmed, and no timeout never
fires. -/
theorem maybe_timeout_spec_witness :
    maybe_timeout (some 2) (⟨3, Except.ok 5⟩ : AsyncOp Nat Nat)
      = Except.error ScopedError.timeoutError ∧
    maybe_timeout (some 2) (⟨1, Except.ok 5⟩ : AsyncOp Nat Nat) = Except.ok 5 ∧
    maybe_timeout none (⟨100, Except.ok 5⟩ : AsyncOp Nat Nat) = Except.ok 5 := by
  refine ⟨?_, ?_, ?_⟩
  · exact ((maybe_timeout_spec (some 2) ⟨3, Except.ok 5⟩).2 2 rfl (by norm_num)).1.mp
      (by norm_num)
  · have h := ((maybe_timeout_spec (some 2) (⟨1, Except.ok 5⟩ : AsyncOp Nat Nat)).2 2 rfl
      (by norm_num)).2 (by norm_num)
    rw [h]
    rfl
  · have h := (maybe_timeout_spec none (⟨100, Except.ok 5⟩ : AsyncOp Nat Nat)).1
      (Or.inl rfl)
    rw [h.1]
    rfl

/-- One waiter pending under name `1`. -/
def wit10State : DelegateState Nat Nat Nat :=
  (wait_for initState 1 none predAlwaysTrue).1

/-- Witness for C10: a dispatch for name `0` leaves name `1`'s listener
and waiter entries untouched. -/
theorem operations_do_not_touch_other_names_witness :
    lookupKey (applyOp wit10State (Op.disp 0 [2])).listeners 1
      = lookupKey wit10State.listeners 1 ∧
    lookupKey (applyOp wit10State (Op.disp 0 [2])).waiters 1
      = lookupKey wit10State.waiters 1 :=
  operations_do_not_touch_other_names wit10State (Op.disp 0 [2]) 1 (by decide)

end Hikari
